import Mathlib

set_option linter.unusedVariables false

/-!
Shallow embedding of the asynchronous decode/caching subsystem of
`src/Code/viewer.py` (King Viewer).  Pure, executable renditions of the
`ImageCache` class, the `FolderScanThread` worker, and the controller logic of
`MainWindow` (request deduplication, stale-result discard, corrupted-file skip,
navigation and neighbor preloading).  The opaque bitmap type `QImage` is the
type parameter `V`; Qt widgets, status-bar text and window titles are
presentation glue outside the modelled state.
-/

/-- `CachedImage` (viewer.py lines 164-168): the decoded, display-ready
artifact stored in the cache.  `info` and `meta` are the string-keyed
dictionaries produced by `extract_metadata`. -/
structure CachedImage (V : Type) where
  qimage : V
  info : List (String × String)
  meta : List (String × String)
deriving DecidableEq

/-- `ImageCache` (viewer.py lines 171-174): an `OrderedDict` from path to
`CachedImage`, rendered as an association list in insertion order.  The FIRST
element is the least recently used entry and the LAST element is the most
recently used one, matching `popitem(last=False)` eviction from the front. -/
structure ImageCache (V : Type) where
  capacity : Nat
  items : List (String × CachedImage V)
deriving DecidableEq

/-- `ImageCache.__init__` (viewer.py line 172-174): `self.capacity = max(1, capacity)`
and an empty ordered dictionary. -/
def mkImageCache (V : Type) (capacity : Nat) : ImageCache V :=
  ⟨max 1 capacity, []⟩

/-- The `while len(self._items) > self.capacity: self._items.popitem(last=False)`
loop of `ImageCache.put` (viewer.py lines 187-188): drop elements from the
front until the length is at most `cap`. -/
def evictOld (cap : Nat) : List α → List α
  | [] => []
  | x :: xs => if cap ≤ xs.length then evictOld cap xs else x :: xs

/-- `ImageCache.get` (viewer.py lines 176-181): `pop` the entry keyed by
`path`; on a miss return `None` leaving the dictionary unchanged, on a hit
re-insert the entry at the most-recently-used end and return it. -/
def ImageCache.get {V : Type} (c : ImageCache V) (path : String) :
    Option (CachedImage V) × ImageCache V :=
  match c.items.lookup path with
  | none => (none, c)
  | some item =>
      (some item, ⟨c.capacity, (c.items.eraseP (fun e => e.1 == path)) ++ [(path, item)]⟩)

/-- `ImageCache.put` (viewer.py lines 183-188): drop any existing entry for
`path`, insert the new entry at the most-recently-used end, then evict from
the least-recently-used end until the size bound holds. -/
def ImageCache.put {V : Type} (c : ImageCache V) (path : String) (item : CachedImage V) :
    ImageCache V :=
  ⟨c.capacity, evictOld c.capacity ((c.items.eraseP (fun e => e.1 == path)) ++ [(path, item)])⟩

/-- One cache operation of the `put`/`get` interface of `ImageCache`. -/
inductive CacheOp (V : Type) where
  | get (path : String)
  | put (path : String) (item : CachedImage V)
deriving DecidableEq

/-- Apply one `CacheOp` to an `ImageCache`, discarding the value returned by
`get` (only the state effect matters for the invariants). -/
def ImageCache.applyOp {V : Type} (c : ImageCache V) : CacheOp V → ImageCache V
  | .get p => (c.get p).2
  | .put p item => c.put p item

/-- Run a finite sequence of `put`/`get` operations against an `ImageCache`. -/
def ImageCache.runOps {V : Type} (c : ImageCache V) (ops : List (CacheOp V)) : ImageCache V :=
  ops.foldl ImageCache.applyOp c

/-- Ghost instrumentation for the LRU invariant: the same ordered dictionary
as `ImageCache`, but each key carries the index of the operation that last
touched it (a `get` hit or a `put`).  `t` is the index of the operation being
applied. -/
def touchStep {V : Type} (cap : Nat) (t : Nat) (s : List (String × Nat)) :
    CacheOp V → List (String × Nat)
  | .get p =>
      if (s.lookup p).isSome then (s.eraseP (fun e => e.1 == p)) ++ [(p, t)] else s
  | .put p _ =>
      evictOld cap ((s.eraseP (fun e => e.1 == p)) ++ [(p, t)])

/-- Run the ghost-instrumented cache over a sequence of operations, starting
at operation index `t`. -/
def touchRun {V : Type} (cap : Nat) (t : Nat) (s : List (String × Nat)) :
    List (CacheOp V) → List (String × Nat)
  | [] => s
  | op :: rest => touchRun cap (t + 1) (touchStep cap t s op) rest

/-- The ghost state reached after the first `k` operations of `ops`, starting
from an empty cache of capacity `max 1 cap`. -/
def touchState {V : Type} (cap : Nat) (ops : List (CacheOp V)) (k : Nat) : List (String × Nat) :=
  touchRun (max 1 cap) 0 [] (ops.take k)

/-- The association list a `put` of `p` at operation index `k` works on just
before eviction: the old entries minus `p`, then `p` re-inserted at the
most-recently-used end. -/
def touchInserted {V : Type} (cap : Nat) (ops : List (CacheOp V)) (k : Nat) (p : String) :
    List (String × Nat) :=
  ((touchState cap ops k).eraseP (fun e => e.1 == p)) ++ [(p, k)]

/-- The entries evicted by a `put` of `p` at operation index `k`: the prefix
of the ordered dictionary that `evictOld` drops. -/
def touchEvicted {V : Type} (cap : Nat) (ops : List (CacheOp V)) (k : Nat) (p : String) :
    List (String × Nat) :=
  (touchInserted cap ops k p).take ((touchInserted cap ops k p).length - max 1 cap)

/-- `SUPPORTED_EXTENSIONS` (viewer.py lines 49-52). -/
def SUPPORTED_EXTENSIONS : List String :=
  [".jpg", ".jpeg", ".png", ".bmp", ".gif", ".webp", ".tif", ".tiff",
   ".heic", ".heif", ".cr2", ".nef", ".arw", ".dng"]

/-- The extension part of `os.path.splitext(name)` for a plain file name
(no directory separators): the suffix starting at the last dot, provided some
character before that dot is not itself a dot (so `.bashrc` has no
extension), else the empty string. -/
def splitextExt (name : String) : String :=
  let cs := name.data
  let dots := (List.range cs.length).filter (fun i => cs.getD i ' ' == '.')
  match dots.getLast? with
  | none => ""
  | some d =>
      if (List.range d).any (fun j => cs.getD j ' ' != '.') then String.mk (cs.drop d)
      else ""

/-- `str.lower()` rendered character by character (the supported extensions
are ASCII, where `Char.toLower` and Python `str.lower` agree). -/
def lowerStr (s : String) : String :=
  String.mk (s.data.map Char.toLower)

/-- Lexicographic comparison of two character lists by code point, the order
Python list.sort() uses on strings. -/
def charsLe : List Char → List Char → Bool
  | [], _ => true
  | _ :: _, [] => false
  | a :: as, b :: bs =>
      if a.toNat = b.toNat then charsLe as bs else decide (a.toNat < b.toNat)

/-- Lexicographic string comparison by code point. -/
def pathLe (a b : String) : Bool :=
  charsLe a.data b.data

/-- Insert a string into an already sorted list of strings. -/
def insertSorted (x : String) : List String → List String
  | [] => [x]
  | y :: ys => if pathLe x y then x :: y :: ys else y :: insertSorted x ys

/-- `files.sort()` of `FolderScanThread.run` (viewer.py line 251): sort the
collected paths lexicographically.  (For a list of strings every sorted
permutation is the same list, so insertion sort computes the same result as
the Python sort.) -/
def sortPaths (l : List String) : List String :=
  l.foldr insertSorted []

/-- One entry yielded by `os.scandir` in `FolderScanThread.run` (viewer.py
lines 247-250).  `name` is `entry.name`, `absPath` models
`os.path.abspath(entry.path)` (path normalization itself is OS glue), and
`isFile` is `entry.is_file()`. -/
structure DirEntry where
  name : String
  absPath : String
  isFile : Bool
deriving DecidableEq

/-- The filter of `FolderScanThread.run` (viewer.py line 249): keep direct
child files whose lower-cased `splitext` extension is supported. -/
def entrySupported (e : DirEntry) : Bool :=
  e.isFile && SUPPORTED_EXTENSIONS.contains (lowerStr (splitextExt e.name))

/-- `FolderScanThread.run` (viewer.py lines 243-256) as a pure function of
the directory listing.  `listing = none` models the `except` branch (folder
unreadable): report an empty file list and index 0.  Otherwise collect the
absolute paths of supported files, sort them, and resolve the starting index
from the optional selected path (`self.selected` is `None` when the
constructor received a falsy value). -/
def scanRun (listing : Option (List DirEntry)) (selected : Option String) :
    List String × Nat :=
  match listing with
  | none => ([], 0)
  | some entries =>
      let files := sortPaths ((entries.filter entrySupported).map (fun e => e.absPath))
      let index :=
        match selected with
        | some s => if s ∈ files then files.indexOf s else 0
        | none => 0
      (files, index)

/-- The mutable `MainWindow` fields driven by the decode/caching subsystem
(viewer.py lines 372-384).  Qt widgets are not modelled; `display` is the
bitmap currently shown by the `ImageViewer` (`none` after `clear_view`).
`loaders` is `self._loaders`, each entry `(request_id, path, role)`. -/
structure ViewerState (V : Type) where
  imageFiles : List String
  currentIndex : Int
  cache : ImageCache V
  thumbPreview : List (String × V)
  thumbIndex : List (String × Nat)
  inflightLoads : List String
  requestId : Nat
  scanToken : Nat
  thumbToken : Nat
  loaders : List (Nat × String × String)
  display : Option V
deriving DecidableEq

/-- The initial `MainWindow` state (viewer.py lines 372-384): no files,
index -1, an empty cache of capacity 15, no in-flight loads, counters 0. -/
def initState (V : Type) : ViewerState V :=
  { imageFiles := []
    currentIndex := -1
    cache := mkImageCache V 15
    thumbPreview := []
    thumbIndex := []
    inflightLoads := []
    requestId := 0
    scanToken := 0
    thumbToken := 0
    loaders := []
    display := none }

/-- The value of `self.image_files[self.current_index] if self.image_files
and self.current_index >= 0 else None` (viewer.py lines 752 and 761). -/
def curPath {V : Type} (st : ViewerState V) : Option String :=
  if st.imageFiles ≠ [] ∧ 0 ≤ st.currentIndex then st.imageFiles[st.currentIndex.toNat]?
  else none

/-- `MainWindow._request_load` (viewer.py lines 723-734): if `path` is
already in flight return `None` without spawning a worker; otherwise allocate
the next request id, record the path as in flight, append the new loader
thread and return the id. -/
def requestLoad {V : Type} (path role : String) (st : ViewerState V) :
    Option Nat × ViewerState V :=
  if path ∈ st.inflightLoads then (none, st)
  else
    let req := st.requestId + 1
    (some req,
      { st with
        requestId := req
        inflightLoads := path :: st.inflightLoads
        loaders := st.loaders ++ [(req, path, role)] })

/-- `MainWindow._drop_loader` (viewer.py lines 736-740), keyed by the request
id of the finished thread: discard its path from the in-flight set and remove
the thread from the loader list.  (In the program the argument is the thread
object itself; every `finished` signal refers to a previously appended
thread, so the id lookup recovers exactly that thread.) -/
def dropLoader {V : Type} (st : ViewerState V) (req : Nat) : ViewerState V :=
  match st.loaders.find? (fun l => l.1 == req) with
  | none => st
  | some l =>
      { st with
        inflightLoads := st.inflightLoads.erase l.2.1
        loaders := st.loaders.eraseP (fun x => x.1 == req) }

/-- `MainWindow._display` (viewer.py lines 713-721): show the decoded bitmap
(info panel, status bar and window title are presentation glue). -/
def displayImage {V : Type} (st : ViewerState V) (cached : CachedImage V) : ViewerState V :=
  { st with display := some cached.qimage }

/-- One iteration of the `for off in (-1, 1)` loop of
`MainWindow._preload_neighbors` (viewer.py lines 782-787): if `current_index + off`
is in range, look the neighbor path up in the cache (a mutating `get`), and
when it is absent request a load with role `"preload"`. -/
def preloadStep {V : Type} (st : ViewerState V) (off : Int) : ViewerState V :=
  let idx := st.currentIndex + off
  if 0 ≤ idx ∧ idx < (st.imageFiles.length : Int) then
    let path := st.imageFiles.getD idx.toNat ""
    let r := st.cache.get path
    let st1 := { st with cache := r.2 }
    match r.1 with
    | none => (requestLoad path "preload" st1).2
    | some _ => st1
  else st

/-- `MainWindow._preload_neighbors` (viewer.py lines 779-787): nothing to do
on an empty file list, else run the loop body for offsets -1 and 1. -/
def preloadNeighbors {V : Type} (st : ViewerState V) : ViewerState V :=
  if st.imageFiles = [] then st
  else preloadStep (preloadStep st (-1)) 1

/-- `MainWindow.load_current` (viewer.py lines 693-711): bounds-check the
index; look the current path up in the cache (promoting it on a hit) and
display it, or else provisionally display a thumbnail preview if one exists
and request a full decode with role `"main"`; finally preload the neighbors.
The thumbnail-list selection sync is widget glue. -/
def loadCurrent {V : Type} (st : ViewerState V) : ViewerState V :=
  if 0 ≤ st.currentIndex ∧ st.currentIndex < (st.imageFiles.length : Int) then
    let path := st.imageFiles.getD st.currentIndex.toNat ""
    let r := st.cache.get path
    let st1 := { st with cache := r.2 }
    match r.1 with
    | some cached => preloadNeighbors (displayImage st1 cached)
    | none =>
        let st2 :=
          match st1.thumbPreview.lookup path with
          | some prev => { st1 with display := some prev }
          | none => st1
        preloadNeighbors (requestLoad path "main" st2).2
  else st

/-- `MainWindow._populate_thumbnails` (viewer.py lines 622-631): rebuild the
path-to-row map (the widget items themselves are glue). -/
def populateThumbnails {V : Type} (st : ViewerState V) : ViewerState V :=
  { st with thumbIndex := st.imageFiles.enum.map (fun e => (e.2, e.1)) }

/-- `MainWindow._start_thumbnail_loader` (viewer.py lines 633-638): advance
the thumbnail generation token (the spawned batch thread only reads its
snapshot arguments). -/
def startThumbnailLoader {V : Type} (st : ViewerState V) : ViewerState V :=
  { st with thumbToken := st.thumbToken + 1 }

/-- `MainWindow._scan_folder` (viewer.py lines 597-603): advance the scan
generation token (the spawned scan thread only reads its arguments). -/
def scanFolderBegin {V : Type} (st : ViewerState V) : ViewerState V :=
  { st with scanToken := st.scanToken + 1 }

/-- `MainWindow._on_scanned` (viewer.py lines 605-620): drop the event if its
token is stale; drop it (after an information dialog) if no files were found;
otherwise replace the file list, clear thumbnail previews, rebuild the
path-to-row map, clamp the index, repopulate thumbnails, start a new
thumbnail batch and load the current image. -/
def onScanned {V : Type} (st : ViewerState V) (token : Nat) (folder : String)
    (files : List String) (index : Nat) : ViewerState V :=
  if token ≠ st.scanToken then st
  else if files = [] then st
  else
    loadCurrent (startThumbnailLoader (populateThumbnails
      { st with
        imageFiles := files
        thumbPreview := []
        thumbIndex := files.enum.map (fun e => (e.2, e.1))
        currentIndex := max 0 (min (index : Int) ((files.length : Int) - 1)) }))

/-- Python dict assignment `d[k] = v`: replace the value in place if the key
exists, else append the binding. -/
def dictInsert {α : Type} (k : String) (v : α) (l : List (String × α)) : List (String × α) :=
  if (l.lookup k).isSome then l.map (fun e => if e.1 == k then (k, v) else e)
  else l ++ [(k, v)]

/-- `MainWindow._on_thumbnail_ready` (viewer.py lines 640-650): drop stale
tokens, else record the preview bitmap (the icon update is widget glue). -/
def onThumbnailReady {V : Type} (st : ViewerState V) (token : Nat) (path : String) (q : V) :
    ViewerState V :=
  if token ≠ st.thumbToken then st
  else { st with thumbPreview := dictInsert path q st.thumbPreview }

/-- `MainWindow._skip_corrupted_current` (viewer.py lines 765-777): with an
empty list just clear the view; with a single file also just clear the view
(the list is left untouched); otherwise pop the current entry, clamp the
index to the new length, rebuild the thumbnails and reload the current
image. -/
def skipCorruptedCurrent {V : Type} (st : ViewerState V) : ViewerState V :=
  if st.imageFiles = [] then { st with display := none }
  else if st.imageFiles.length = 1 then { st with display := none }
  else
    let files2 := st.imageFiles.eraseIdx st.currentIndex.toNat
    let idx2 : Int :=
      if (files2.length : Int) ≤ st.currentIndex then (files2.length : Int) - 1
      else st.currentIndex
    loadCurrent (populateThumbnails { st with imageFiles := files2, currentIndex := idx2 })

/-- `MainWindow._on_loaded` (viewer.py lines 742-763): on failure (any `None`
payload) run the corrupted-file skip only when the failed path is the current
one; on success store the decoded image in the cache and display it only when
its path is still the current one. -/
def onLoaded {V : Type} (st : ViewerState V) (requestId : Nat) (path : String)
    (qimage : Option V) (info meta : Option (List (String × String))) (role : String) :
    ViewerState V :=
  match qimage, info, meta with
  | some q, some i, some m =>
      let cached : CachedImage V := ⟨q, i, m⟩
      let st1 := { st with cache := st.cache.put path cached }
      if curPath st1 = some path then displayImage st1 cached else st1
  | _, _, _ =>
      if curPath st = some path then skipCorruptedCurrent st else st

/-- `MainWindow.next_image` (viewer.py lines 662-666). -/
def nextImage {V : Type} (st : ViewerState V) : ViewerState V :=
  if st.imageFiles = [] then st
  else loadCurrent
    { st with currentIndex := (st.currentIndex + 1) % (st.imageFiles.length : Int) }

/-- `MainWindow.prev_image` (viewer.py lines 668-672). -/
def prevImage {V : Type} (st : ViewerState V) : ViewerState V :=
  if st.imageFiles = [] then st
  else loadCurrent
    { st with currentIndex := (st.currentIndex - 1) % (st.imageFiles.length : Int) }

/-- `MainWindow._move_selection_only` (viewer.py lines 674-683): move the
selection index with wraparound, without loading. -/
def moveSelectionOnly {V : Type} (st : ViewerState V) (step : Int) : ViewerState V :=
  if st.imageFiles = [] then st
  else { st with currentIndex := (st.currentIndex + step) % (st.imageFiles.length : Int) }

/-- `MainWindow.on_thumbnail_clicked` (viewer.py lines 652-656). -/
def onThumbnailClicked {V : Type} (st : ViewerState V) (row : Nat) : ViewerState V :=
  if row < st.imageFiles.length then loadCurrent { st with currentIndex := (row : Int) }
  else st

/-- The controller events consumed on the interactive thread: worker
completions and the user actions that mutate the modelled state. -/
inductive ViewerEvent (V : Type) where
  | beginScan
  | scanned (token : Nat) (folder : String) (files : List String) (index : Nat)
  | thumbReady (token : Nat) (path : String) (q : V)
  | loaded (req : Nat) (path : String) (qimage : Option V)
      (info meta : Option (List (String × String))) (role : String)
  | finishedLoad (req : Nat)
  | nextKey
  | prevKey
  | selectionMove (step : Int)
  | thumbClick (row : Nat)

/-- Dispatch one event to the matching `MainWindow` handler. -/
def stepEvent {V : Type} (st : ViewerState V) : ViewerEvent V → ViewerState V
  | .beginScan => scanFolderBegin st
  | .scanned token folder files index => onScanned st token folder files index
  | .thumbReady token path q => onThumbnailReady st token path q
  | .loaded req path qimage info meta role => onLoaded st req path qimage info meta role
  | .finishedLoad req => dropLoader st req
  | .nextKey => nextImage st
  | .prevKey => prevImage st
  | .selectionMove step => moveSelectionOnly st step
  | .thumbClick row => onThumbnailClicked st row

/-- Run a finite event sequence from a starting state. -/
def runEvents {V : Type} (st : ViewerState V) (evs : List (ViewerEvent V)) : ViewerState V :=
  evs.foldl stepEvent st

/-- The paths of the currently active loader threads. -/
def loaderPaths {V : Type} (st : ViewerState V) : List String :=
  st.loaders.map (fun l => l.2.1)

/-- Consistency of the in-flight bookkeeping: the in-flight set has no
duplicates, it holds exactly the paths of the active loader threads, and no
two active loader threads decode the same path. -/
def LoadersOk {V : Type} (st : ViewerState V) : Prop :=
  st.inflightLoads.Nodup ∧
  (∀ p : String, p ∈ st.inflightLoads ↔ p ∈ loaderPaths st) ∧
  (loaderPaths st).Nodup

/-- Basic well-formedness of the navigation state: the current index never
exceeds the file list (Python would raise on indexing otherwise). -/
def IndexOk {V : Type} (st : ViewerState V) : Prop :=
  st.currentIndex < (st.imageFiles.length : Int)

/-- Recency-order correctness of the ghost cache: the entries are strictly
ordered by last-touch index, and every last-touch index is below the index
`t` of the next operation. -/
def TimesOk (t : Nat) (s : List (String × Nat)) : Prop :=
  List.Pairwise (fun a b => a.2 < b.2) s ∧ ∀ e ∈ s, e.2 < t

/-- The real cache reached after the first `k` operations of `ops`, starting
from a fresh `ImageCache(capacity=cap)`. -/
def realCache (V : Type) (cap : Nat) (ops : List (CacheOp V)) (k : Nat) : ImageCache V :=
  (mkImageCache V cap).runOps (ops.take k)

/-- Concrete single-file state for the single-file corruption scenario:
files `[A]`, index 0, something on screen. -/
def c2State : ViewerState Nat :=
  { initState Nat with imageFiles := ["A"], currentIndex := 0, display := some 7 }

/-- Concrete three-file state for the corrupted-file removal scenario:
files `[A, B, C]`, index 1 (B selected). -/
def c3State : ViewerState Nat :=
  { initState Nat with imageFiles := ["A", "B", "C"], currentIndex := 1 }

/-- Concrete state for the stale-scan scenario: active scan token 2. -/
def c5State : ViewerState Nat :=
  { initState Nat with imageFiles := ["x", "y"], currentIndex := 0, scanToken := 2 }

/-- Concrete three-file state at index 0 for the preload scenarios. -/
def c8State : ViewerState Nat :=
  { initState Nat with imageFiles := ["/a", "/b", "/c"], currentIndex := 0 }

/-- Concrete three-file state for the navigation wraparound scenario. -/
def c7State : ViewerState Nat :=
  { initState Nat with imageFiles := ["a", "b", "c"], currentIndex := 2 }

/-- A cached image over the bitmap type `Nat`, for concrete runs. -/
def cimg (n : Nat) : CachedImage Nat :=
  ⟨n, [], []⟩

/-- The `0 <= idx < len(self.image_files)` guard of the preload loop body
(viewer.py line 784). -/
def neighborInRange {V : Type} (st : ViewerState V) (off : Int) : Prop :=
  0 ≤ st.currentIndex + off ∧ st.currentIndex + off < (st.imageFiles.length : Int)

/-- The path `self.image_files[idx]` examined by the preload loop body
(viewer.py line 785). -/
def neighborPath {V : Type} (st : ViewerState V) (off : Int) : String :=
  st.imageFiles.getD (st.currentIndex + off).toNat ""

/-- Concrete state whose cache already holds both neighbors of the current
index: files `[/a, /b, /c]`, index 1, cached `/a` and `/c`. -/
def c10State : ViewerState Nat :=
  { initState Nat with
    imageFiles := ["/a", "/b", "/c"]
    currentIndex := 1
    cache := ⟨15, [("/a", cimg 1), ("/c", cimg 2)]⟩ }

/-- A concrete operation sequence against a capacity-1 cache: two inserts
(the second evicts the first) and then a hit. -/
def c1Ops : List (CacheOp Nat) :=
  [CacheOp.put "a" (cimg 0), CacheOp.put "b" (cimg 1), CacheOp.get "b"]

/-! ## Frame lemmas: which state fields the transitions leave untouched -/

theorem requestLoad_files_idx {V : Type} (p role : String) (st : ViewerState V) :
    ((requestLoad p role st).2).imageFiles = st.imageFiles ∧
    ((requestLoad p role st).2).currentIndex = st.currentIndex := by
  unfold requestLoad
  split <;> exact ⟨rfl, rfl⟩

theorem preloadStep_files_idx {V : Type} (st : ViewerState V) (off : Int) :
    (preloadStep st off).imageFiles = st.imageFiles ∧
    (preloadStep st off).currentIndex = st.currentIndex := by
  simp only [preloadStep]
  split
  · split
    · exact requestLoad_files_idx _ _ _
    · exact ⟨rfl, rfl⟩
  · exact ⟨rfl, rfl⟩

theorem preloadNeighbors_files_idx {V : Type} (st : ViewerState V) :
    (preloadNeighbors st).imageFiles = st.imageFiles ∧
    (preloadNeighbors st).currentIndex = st.currentIndex := by
  unfold preloadNeighbors
  split
  · exact ⟨rfl, rfl⟩
  · obtain ⟨h1, h2⟩ := preloadStep_files_idx (preloadStep st (-1)) 1
    obtain ⟨h3, h4⟩ := preloadStep_files_idx st (-1)
    exact ⟨h1.trans h3, h2.trans h4⟩

theorem loadCurrent_files_idx {V : Type} (st : ViewerState V) :
    (loadCurrent st).imageFiles = st.imageFiles ∧
    (loadCurrent st).currentIndex = st.currentIndex := by
  simp only [loadCurrent]
  split
  · split
    · exact preloadNeighbors_files_idx _
    · split
      · exact ⟨(preloadNeighbors_files_idx _).1.trans (requestLoad_files_idx _ _ _).1,
          (preloadNeighbors_files_idx _).2.trans (requestLoad_files_idx _ _ _).2⟩
      · exact ⟨(preloadNeighbors_files_idx _).1.trans (requestLoad_files_idx _ _ _).1,
          (preloadNeighbors_files_idx _).2.trans (requestLoad_files_idx _ _ _).2⟩
  · exact ⟨rfl, rfl⟩

/-! ## C5: stale scan results are dropped without any mutation -/

/-- C5: a scan-completion event whose token differs from the live scan token
leaves the whole controller state (file list, index, thumbnail previews,
cache, everything) exactly as it was. -/
theorem C5_stale_scan_ignored {V : Type} (st : ViewerState V) (token : Nat) (folder : String)
    (files : List String) (index : Nat) (h : token ≠ st.scanToken) :
    onScanned st token folder files index = st := by
  unfold onScanned
  simp [h]

theorem C5_witness :
    (1 ≠ c5State.scanToken) ∧ onScanned c5State 1 "/d" ["z"] 0 = c5State :=
  ⟨by decide, C5_stale_scan_ignored c5State 1 "/d" ["z"] 0 (by decide)⟩

/-! ## C2: decode failure of the only file -/

/-- C2 as stated is false on the code: with files `[A]` and index 0, a decode
failure for A leaves the file list `[A]` (the single-file branch of
`_skip_corrupted_current` clears the view and returns without popping), so
the file list does not become empty. -/
theorem C2_counterexample :
    (onLoaded c2State 1 "A" none none none "main").imageFiles = ["A"] ∧
    (["A"] : List String) ≠ [] := by
  decide

/-- C2 amended: with files `[A]` and index 0, a decode failure for A clears
the display and leaves everything else, in particular the file list `[A]` and
the index, unchanged; no crash occurs (the transition is total). -/
theorem C2_amended_single_file {V : Type} (st : ViewerState V) (p : String) (req : Nat)
    (role : String) (hf : st.imageFiles = [p]) (hi : st.currentIndex = 0) :
    onLoaded st req p none none none role = { st with display := none } := by
  have hcur : curPath st = some p := by
    unfold curPath
    rw [hf, hi]
    simp
  unfold onLoaded
  simp only [hcur]
  unfold skipCorruptedCurrent
  rw [hf]
  simp

theorem C2_witness :
    onLoaded c2State 2 "A" none none none "main" = { c2State with display := none } :=
  C2_amended_single_file c2State "A" 2 "main" (by decide) (by decide)

/-! ## C7: navigation wraparound -/

theorem nextImage_spec {V : Type} (st : ViewerState V) (h : st.imageFiles ≠ []) :
    (nextImage st).imageFiles = st.imageFiles ∧
    (nextImage st).currentIndex = (st.currentIndex + 1) % (st.imageFiles.length : Int) := by
  simp only [nextImage]
  rw [if_neg h]
  exact ⟨(loadCurrent_files_idx _).1, (loadCurrent_files_idx _).2⟩

theorem prevImage_spec {V : Type} (st : ViewerState V) (h : st.imageFiles ≠ []) :
    (prevImage st).imageFiles = st.imageFiles ∧
    (prevImage st).currentIndex = (st.currentIndex - 1) % (st.imageFiles.length : Int) := by
  simp only [prevImage]
  rw [if_neg h]
  exact ⟨(loadCurrent_files_idx _).1, (loadCurrent_files_idx _).2⟩

theorem nextImage_iterate {V : Type} (st : ViewerState V)
    (h2 : 2 ≤ st.imageFiles.length) (h0 : 0 ≤ st.currentIndex)
    (hlt : st.currentIndex < (st.imageFiles.length : Int)) :
    ∀ k : Nat, (nextImage^[k] st).imageFiles = st.imageFiles ∧
      (nextImage^[k] st).currentIndex
        = (st.currentIndex + k) % (st.imageFiles.length : Int) := by
  intro k
  induction k with
  | zero =>
      refine ⟨rfl, ?_⟩
      simpa using (Int.emod_eq_of_lt h0 hlt).symm
  | succ n ih =>
      rw [Function.iterate_succ_apply']
      have hne : (nextImage^[n] st).imageFiles ≠ [] := by
        rw [ih.1]
        intro hnil
        rw [hnil] at h2
        simp at h2
      obtain ⟨hf, hi⟩ := nextImage_spec (nextImage^[n] st) hne
      refine ⟨hf.trans ih.1, ?_⟩
      rw [hi, ih.1, ih.2, Int.emod_add_emod]
      push_cast
      ring_nf

/-- C7: for a file list of length N at least 2 and a current index in range,
N applications of `next_image` return the index to its start value,
`prev_image` from index 0 yields N - 1, and both transitions compute
(index plus or minus 1) modulo the list length. -/
theorem C7_navigation_wraparound {V : Type} (st : ViewerState V)
    (h2 : 2 ≤ st.imageFiles.length) (h0 : 0 ≤ st.currentIndex)
    (hlt : st.currentIndex < (st.imageFiles.length : Int)) :
    (nextImage^[st.imageFiles.length] st).currentIndex = st.currentIndex ∧
    (st.currentIndex = 0 →
      (prevImage st).currentIndex = (st.imageFiles.length : Int) - 1) ∧
    (nextImage st).currentIndex = (st.currentIndex + 1) % (st.imageFiles.length : Int) ∧
    (prevImage st).currentIndex = (st.currentIndex - 1) % (st.imageFiles.length : Int) := by
  have hne : st.imageFiles ≠ [] := by
    intro hnil
    rw [hnil] at h2
    simp at h2
  refine ⟨?_, ?_, (nextImage_spec st hne).2, (prevImage_spec st hne).2⟩
  · rw [(nextImage_iterate st h2 h0 hlt st.imageFiles.length).2]
    have h1 : st.currentIndex + (st.imageFiles.length : Int)
        = st.currentIndex + (st.imageFiles.length : Int) * 1 := by ring
    rw [h1, Int.add_mul_emod_self_left, Int.emod_eq_of_lt h0 hlt]
  · intro hz
    rw [(prevImage_spec st hne).2, hz]
    have h1 : (0 - 1 : Int)
        = ((st.imageFiles.length : Int) - 1) + (st.imageFiles.length : Int) * (-1) := by ring
    rw [h1, Int.add_mul_emod_self_left,
      Int.emod_eq_of_lt (by omega) (by omega)]

theorem C7_witness :
    2 ≤ c7State.imageFiles.length ∧
    (nextImage^[c7State.imageFiles.length] c7State).currentIndex = c7State.currentIndex ∧
    (prevImage { c7State with currentIndex := 0 }).currentIndex
      = (c7State.imageFiles.length : Int) - 1 := by
  refine ⟨by decide, (C7_navigation_wraparound c7State (by decide) (by decide) (by decide)).1, ?_⟩
  exact (C7_navigation_wraparound { c7State with currentIndex := 0 }
    (by decide) (by decide) (by decide)).2.1 rfl

/-! ## C6: arrival-time staleness check in the decode completion handler -/

/-- C6: a successful full-decode result for `p` replaces the displayed image
exactly when `p` equals the path at the current index at arrival time
(otherwise only the cache is updated), and a decode failure for a
non-current path is ignored entirely, mutating nothing. -/
theorem C6_loaded_path_check {V : Type} (st : ViewerState V) (req : Nat) (path : String)
    (role : String) (hwf : IndexOk st) :
    (∀ (q : V) (i m : List (String × String)), curPath st = some path →
        onLoaded st req path (some q) (some i) (some m) role
          = displayImage { st with cache := st.cache.put path ⟨q, i, m⟩ } ⟨q, i, m⟩) ∧
    (∀ (q : V) (i m : List (String × String)), curPath st ≠ some path →
        onLoaded st req path (some q) (some i) (some m) role
          = { st with cache := st.cache.put path ⟨q, i, m⟩ }) ∧
    (∀ (qi : Option V) (info meta : Option (List (String × String))),
        (qi = none ∨ info = none ∨ meta = none) → curPath st ≠ some path →
        onLoaded st req path qi info meta role = st) := by
  refine ⟨?_, ?_, ?_⟩
  · intro q i m hcur
    simp only [onLoaded]
    have hc : curPath { st with cache := st.cache.put path ⟨q, i, m⟩ } = curPath st := rfl
    rw [hc, if_pos hcur]
  · intro q i m hcur
    simp only [onLoaded]
    have hc : curPath { st with cache := st.cache.put path ⟨q, i, m⟩ } = curPath st := rfl
    rw [hc, if_neg hcur]
  · intro qi info meta hfail hcur
    cases qi <;> cases info <;> cases meta <;>
      first
        | (simp only [onLoaded]; rw [if_neg hcur])
        | (rcases hfail with h | h | h <;> simp at h)

theorem C6_witness :
    IndexOk c5State ∧
    onLoaded c5State 9 "other" none none none "preload" = c5State := by
  have hwf : IndexOk c5State := by
    unfold IndexOk
    decide
  have hcur : curPath c5State ≠ some "other" := by decide
  exact ⟨hwf,
    (C6_loaded_path_check c5State 9 "other" "preload" hwf).2.2 none none none
      (Or.inl rfl) hcur⟩

/-! ## C3: corrupted-file removal for the currently selected path -/

/-- C3: with at least two files and the failure arriving for the currently
selected path, the handler pops exactly that path at the current position,
clamps the index to min(currentIndex, new length - 1), and re-runs
`load_current` on the result. -/
theorem C3_skip_current {V : Type} (st : ViewerState V) (p : String) (req : Nat) (role : String)
    (h2 : 2 ≤ st.imageFiles.length) (h0 : 0 ≤ st.currentIndex)
    (hlt : st.currentIndex < (st.imageFiles.length : Int))
    (hcur : curPath st = some p) :
    onLoaded st req p none none none role
      = loadCurrent (populateThumbnails
          { st with
            imageFiles := st.imageFiles.eraseIdx st.currentIndex.toNat
            currentIndex := min st.currentIndex
              (((st.imageFiles.eraseIdx st.currentIndex.toNat).length : Int) - 1) })
    ∧ st.imageFiles[st.currentIndex.toNat]? = some p
    ∧ (st.imageFiles.eraseIdx st.currentIndex.toNat).length + 1 = st.imageFiles.length := by
  have hne : st.imageFiles ≠ [] := by
    intro h
    rw [h] at h2
    simp at h2
  have hlen1 : st.imageFiles.length ≠ 1 := by omega
  have htn : st.currentIndex.toNat < st.imageFiles.length := by omega
  have herase : (st.imageFiles.eraseIdx st.currentIndex.toNat).length + 1
      = st.imageFiles.length := by
    rw [List.length_eraseIdx_of_lt htn]
    omega
  refine ⟨?_, ?_, herase⟩
  · simp only [onLoaded]
    rw [if_pos hcur]
    simp only [skipCorruptedCurrent]
    rw [if_neg hne, if_neg hlen1]
    have harr : (if ((st.imageFiles.eraseIdx st.currentIndex.toNat).length : Int)
          ≤ st.currentIndex
        then ((st.imageFiles.eraseIdx st.currentIndex.toNat).length : Int) - 1
        else st.currentIndex)
        = min st.currentIndex
            (((st.imageFiles.eraseIdx st.currentIndex.toNat).length : Int) - 1) := by
      split <;> omega
    rw [harr]
  · unfold curPath at hcur
    rw [if_pos ⟨hne, h0⟩] at hcur
    exact hcur

theorem C3_witness :
    (onLoaded c3State 1 "B" none none none "main").imageFiles = ["A", "C"] ∧
    (onLoaded c3State 1 "B" none none none "main").currentIndex = 1 ∧
    (onLoaded c3State 1 "B" none none none "main").loaders.map (fun l => l.2)
      = [("C", "main"), ("A", "preload")] ∧
    onLoaded c3State 1 "B" none none none "main"
      = loadCurrent (populateThumbnails
          { c3State with imageFiles := ["A", "C"], currentIndex := 1 }) := by
  refine ⟨by decide, by decide, by decide, ?_⟩
  have h := (C3_skip_current c3State "B" 1 "main" (by decide) (by decide) (by decide)
    (by decide)).1
  exact h

/-! ## C4: request deduplication and unconditional in-flight removal -/

theorem find?_first {α : Type} (p : α → Bool) (L1 L2 : List α) (a : α)
    (h1 : ∀ b ∈ L1, ¬p b = true) (h2 : p a = true) :
    (L1 ++ a :: L2).find? p = some a := by
  induction L1 with
  | nil => simp [List.find?_cons, h2]
  | cons b bs ih =>
      have hb : ¬p b = true := h1 b (List.mem_cons_self b bs)
      simp only [List.cons_append, List.find?_cons]
      rw [Bool.eq_false_iff.mpr hb]  -- hmm placeholder
      exact ih (fun x hx => h1 x (List.mem_cons_of_mem b hx))

theorem loadersOk_congr {V : Type} (st st' : ViewerState V)
    (h1 : st'.inflightLoads = st.inflightLoads) (h2 : st'.loaders = st.loaders)
    (h : LoadersOk st) : LoadersOk st' := by
  unfold LoadersOk loaderPaths at h ⊢
  rw [h1, h2]
  exact h

theorem initState_loadersOk (V : Type) : LoadersOk (initState V) := by
  refine ⟨List.nodup_nil, ?_, List.nodup_nil⟩
  intro p
  simp [initState, loaderPaths]

theorem requestLoad_loadersOk {V : Type} (p role : String) (st : ViewerState V)
    (h : LoadersOk st) : LoadersOk ((requestLoad p role st).2) := by
  obtain ⟨hnd, hiff, hpaths⟩ := h
  unfold requestLoad
  split
  · exact ⟨hnd, hiff, hpaths⟩
  · rename_i hnotmem
    have hpnotpaths : p ∉ loaderPaths st := fun hx => hnotmem ((hiff p).2 hx)
    refine ⟨?_, ?_, ?_⟩
    · exact List.Nodup.cons hnotmem hnd
    · intro q
      have hq := hiff q
      simp only [loaderPaths] at hq ⊢
      simp only [List.mem_cons, List.map_append, List.mem_append, List.map_cons,
        List.map_nil, List.mem_singleton, List.not_mem_nil, or_false]
      rw [hq]
      exact Or.comm
    · show ((st.loaders ++ [(st.requestId + 1, p, role)]).map _).Nodup
      rw [List.map_append]
      rw [List.nodup_append]
      refine ⟨hpaths, List.nodup_singleton _, ?_⟩
      intro q hq hq2
      simp only [List.map_cons, List.map_nil, List.mem_singleton] at hq2
      rw [hq2] at hq
      exact hpnotpaths hq

theorem dropLoader_loadersOk {V : Type} (st : ViewerState V) (req : Nat)
    (h : LoadersOk st) : LoadersOk (dropLoader st req) := by
  obtain ⟨hnd, hiff, hpaths⟩ := h
  simp only [dropLoader]
  split
  · exact ⟨hnd, hiff, hpaths⟩
  · rename_i l₀ hf
    have hmem : l₀ ∈ st.loaders := List.mem_of_find?_eq_some hf
    have hp := List.find?_some hf
    obtain ⟨a, L1, L2, hL1, hpa, hdec, herase⟩ :=
      @List.exists_of_eraseP _ (fun l => l.1 == req) st.loaders l₀ hmem hp
    have ha : a = l₀ := by
      have hfs := find?_first (fun l => l.1 == req) L1 L2 a hL1 hpa
      rw [← hdec] at hfs
      exact Option.some.inj (hfs.symm.trans hf)
    subst ha
    have hpathdec : loaderPaths st
        = L1.map (fun l => l.2.1) ++ a.2.1 :: L2.map (fun l => l.2.1) := by
      simp [loaderPaths, hdec]
    have hnodup2 : (L1.map (fun l => l.2.1) ++ a.2.1 :: L2.map (fun l => l.2.1)).Nodup := by
      rw [← hpathdec]
      exact hpaths
    obtain ⟨hA, hB, hdisj⟩ := List.nodup_append.mp hnodup2
    have hp0A : a.2.1 ∉ L1.map (fun l => l.2.1) := by
      intro hx
      exact hdisj hx (List.mem_cons_self _ _)
    have hp0B : a.2.1 ∉ L2.map (fun l => l.2.1) := (List.nodup_cons.mp hB).1
    refine ⟨hnd.erase _, ?_, ?_⟩
    · intro q
      show q ∈ st.inflightLoads.erase a.2.1 ↔ _
      rw [List.Nodup.mem_erase_iff hnd]
      simp only [loaderPaths]
      show _ ↔ q ∈ (st.loaders.eraseP (fun x => x.1 == req)).map (fun l => l.2.1)
      rw [herase, List.map_append, hiff q, hpathdec]
      constructor
      · rintro ⟨hne, hmemq⟩
        rcases List.mem_append.mp hmemq with h | h
        · exact List.mem_append.mpr (Or.inl h)
        · rcases List.mem_cons.mp h with h | h
          · exact absurd h hne
          · exact List.mem_append.mpr (Or.inr h)
      · intro hmemq
        have hqne : q ≠ a.2.1 := by
          rintro rfl
          rcases List.mem_append.mp hmemq with h | h
          · exact hp0A h
          · exact hp0B h
        refine ⟨hqne, ?_⟩
        rcases List.mem_append.mp hmemq with h | h
        · exact List.mem_append.mpr (Or.inl h)
        · exact List.mem_append.mpr (Or.inr (List.mem_cons_of_mem _ h))
    · simp only [loaderPaths]
      show ((st.loaders.eraseP (fun x => x.1 == req)).map (fun l => l.2.1)).Nodup
      rw [herase]
      have hsub : (L1 ++ L2).Sublist (L1 ++ a :: L2) :=
        (List.sublist_cons_self a L2).append_left L1
      have hsubm := hsub.map (fun l : Nat × String × String => l.2.1)
      refine hsubm.nodup ?_
      rw [← hdec]
      exact hpaths

theorem preloadStep_loadersOk {V : Type} (st : ViewerState V) (off : Int)
    (h : LoadersOk st) : LoadersOk (preloadStep st off) := by
  simp only [preloadStep]
  split
  · split
    · exact requestLoad_loadersOk _ _ _ (loadersOk_congr st _ rfl rfl h)
    · exact loadersOk_congr st _ rfl rfl h
  · exact h

theorem preloadNeighbors_loadersOk {V : Type} (st : ViewerState V)
    (h : LoadersOk st) : LoadersOk (preloadNeighbors st) := by
  simp only [preloadNeighbors]
  split
  · exact h
  · exact preloadStep_loadersOk _ _ (preloadStep_loadersOk _ _ h)

theorem loadCurrent_loadersOk {V : Type} (st : ViewerState V)
    (h : LoadersOk st) : LoadersOk (loadCurrent st) := by
  simp only [loadCurrent]
  split
  · split
    · exact preloadNeighbors_loadersOk _ (loadersOk_congr st _ rfl rfl h)
    · split
      · exact preloadNeighbors_loadersOk _
          (requestLoad_loadersOk _ _ _ (loadersOk_congr st _ rfl rfl h))
      · exact preloadNeighbors_loadersOk _
          (requestLoad_loadersOk _ _ _ (loadersOk_congr st _ rfl rfl h))
  · exact h

theorem skipCorrupted_loadersOk {V : Type} (st : ViewerState V)
    (h : LoadersOk st) : LoadersOk (skipCorruptedCurrent st) := by
  simp only [skipCorruptedCurrent]
  split
  · exact loadersOk_congr st _ rfl rfl h
  · split
    · exact loadersOk_congr st _ rfl rfl h
    · exact loadCurrent_loadersOk _ (loadersOk_congr st _ rfl rfl h)

theorem onLoaded_loadersOk {V : Type} (st : ViewerState V) (req : Nat) (path : String)
    (qimage : Option V) (info meta : Option (List (String × String))) (role : String)
    (h : LoadersOk st) : LoadersOk (onLoaded st req path qimage info meta role) := by
  cases qimage <;> cases info <;> cases meta <;> simp only [onLoaded] <;> split <;>
    first
      | exact skipCorrupted_loadersOk _ h
      | exact h

theorem onScanned_loadersOk {V : Type} (st : ViewerState V) (token : Nat) (folder : String)
    (files : List String) (index : Nat)
    (h : LoadersOk st) : LoadersOk (onScanned st token folder files index) := by
  simp only [onScanned]
  split
  · exact h
  · split
    · exact h
    · exact loadCurrent_loadersOk _ (loadersOk_congr st _ rfl rfl h)

theorem stepEvent_loadersOk {V : Type} (st : ViewerState V) (ev : ViewerEvent V)
    (h : LoadersOk st) : LoadersOk (stepEvent st ev) := by
  cases ev with
  | beginScan => exact loadersOk_congr st _ rfl rfl h
  | scanned token folder files index => exact onScanned_loadersOk st token folder files index h
  | thumbReady token path q =>
      simp only [stepEvent, onThumbnailReady]
      split
      · exact h
      · exact loadersOk_congr st _ rfl rfl h
  | loaded req path qimage info meta role => exact onLoaded_loadersOk st req path qimage info meta role h
  | finishedLoad req => exact dropLoader_loadersOk _ _ h
  | nextKey =>
      simp only [stepEvent, nextImage]
      split
      · exact h
      · exact loadCurrent_loadersOk _ (loadersOk_congr st _ rfl rfl h)
  | prevKey =>
      simp only [stepEvent, prevImage]
      split
      · exact h
      · exact loadCurrent_loadersOk _ (loadersOk_congr st _ rfl rfl h)
  | selectionMove step =>
      simp only [stepEvent, moveSelectionOnly]
      split
      · exact h
      · exact loadersOk_congr st _ rfl rfl h
  | thumbClick row =>
      simp only [stepEvent, onThumbnailClicked]
      split
      · exact loadCurrent_loadersOk _ (loadersOk_congr st _ rfl rfl h)
      · exact h

theorem runEvents_loadersOk {V : Type} (evs : List (ViewerEvent V)) (st : ViewerState V)
    (h : LoadersOk st) : LoadersOk (runEvents st evs) := by
  induction evs generalizing st with
  | nil => exact h
  | cons ev rest ih => exact ih (stepEvent st ev) (stepEvent_loadersOk st ev h)

/-- C4: a request for a path already in flight returns `None` and changes
nothing (no new worker), dropping a finished loader removes its path from the
in-flight set, and along every event sequence from the initial state the
in-flight bookkeeping stays consistent, so no two active decode workers ever
share a path. -/
theorem C4_dedup_invariant (V : Type) :
    (∀ (st : ViewerState V) (p role : String),
        p ∈ st.inflightLoads → requestLoad p role st = (none, st)) ∧
    (∀ (st : ViewerState V) (req : Nat) (l₀ : Nat × String × String),
        LoadersOk st → st.loaders.find? (fun l => l.1 == req) = some l₀ →
        l₀.2.1 ∉ (dropLoader st req).inflightLoads) ∧
    (∀ evs : List (ViewerEvent V),
        LoadersOk (runEvents (initState V) evs) ∧
        (loaderPaths (runEvents (initState V) evs)).Nodup) := by
  refine ⟨?_, ?_, ?_⟩
  · intro st p role hmem
    simp only [requestLoad]
    rw [if_pos hmem]
  · intro st req l₀ hok hf
    obtain ⟨hnd, hiff, hpaths⟩ := hok
    simp only [dropLoader]
    rw [hf]
    show l₀.2.1 ∉ st.inflightLoads.erase l₀.2.1
    intro hmem
    exact ((List.Nodup.mem_erase_iff hnd).mp hmem).1 rfl
  · intro evs
    have h := runEvents_loadersOk evs (initState V) (initState_loadersOk V)
    exact ⟨h, h.2.2⟩

theorem C4_witness :
    ((requestLoad "p" "main" { initState Nat with inflightLoads := ["p"] }).1 = none ∧
      (requestLoad "p" "main" { initState Nat with inflightLoads := ["p"] }).2.loaders = []) ∧
    "q" ∉ (dropLoader
        { initState Nat with inflightLoads := ["q"], loaders := [(1, "q", "main")] }
        1).inflightLoads ∧
    LoadersOk (runEvents (initState Nat)
      [ViewerEvent.beginScan, ViewerEvent.scanned 1 "/d" ["a", "b"] 0]) := by
  have hok : LoadersOk { initState Nat with inflightLoads := ["q"], loaders := [(1, "q", "main")] } := by
    refine ⟨by decide, ?_, by decide⟩
    intro p
    show p ∈ ["q"] ↔ p ∈ ["q"]
    exact Iff.rfl
  refine ⟨?_, ?_, ?_⟩
  · have h := (C4_dedup_invariant Nat).1 { initState Nat with inflightLoads := ["p"] }
      "p" "main" (by decide)
    rw [h]
    exact ⟨rfl, rfl⟩
  · exact (C4_dedup_invariant Nat).2.1
      { initState Nat with inflightLoads := ["q"], loaders := [(1, "q", "main")] }
      1 (1, "q", "main") hok (by decide)
  · exact ((C4_dedup_invariant Nat).2.2
      [ViewerEvent.beginScan, ViewerEvent.scanned 1 "/d" ["a", "b"] 0]).1

/-! ## Cache lookup decomposition lemmas -/

theorem lookup_isSome_iff {α : Type} (l : List (String × α)) (p : String) :
    (l.lookup p).isSome = true ↔ p ∈ l.map Prod.fst := by
  induction l with
  | nil => simp [List.lookup]
  | cons a rest ih =>
      obtain ⟨k, v⟩ := a
      by_cases hk : p = k
      · subst hk
        simp [List.lookup]
      · have hbeq : (p == k) = false := by
          simp [hk]
        simp [List.lookup, hbeq, ih, hk]

theorem lookup_eraseP_decomp {α : Type} (l : List (String × α)) (p : String) (item : α)
    (h : l.lookup p = some item) :
    ∃ L1 L2, l = L1 ++ (p, item) :: L2 ∧ (∀ e ∈ L1, e.1 ≠ p) ∧
      l.eraseP (fun e => e.1 == p) = L1 ++ L2 := by
  induction l with
  | nil => simp [List.lookup] at h
  | cons a rest ih =>
      obtain ⟨k, v⟩ := a
      by_cases hk : p = k
      · subst hk
        have hv : v = item := by
          simpa [List.lookup] using h
        subst hv
        refine ⟨[], rest, by simp, by simp, ?_⟩
        simp [List.eraseP]
      · have hbeq : (p == k) = false := by
          simp [hk]
        have hbeq2 : (k == p) = false := by
          simp only [beq_eq_false_iff_ne, ne_eq]
          exact fun hx => hk hx.symm
        have h2 : rest.lookup p = some item := by
          simpa [List.lookup, hbeq] using h
        obtain ⟨L1, L2, hdec, hkey, herase⟩ := ih h2
        refine ⟨(k, v) :: L1, L2, by simp [hdec], ?_, ?_⟩
        · intro e he
          rcases List.mem_cons.mp he with he | he
          · rw [he]
            exact fun hx => hk hx.symm
          · exact hkey e he
        · simp [List.eraseP, hbeq2, herase]

theorem get_miss {V : Type} (c : ImageCache V) (p : String)
    (h : c.items.lookup p = none) : c.get p = (none, c) := by
  simp [ImageCache.get, h]

theorem get_hit {V : Type} (c : ImageCache V) (p : String) (item : CachedImage V)
    (h : c.items.lookup p = some item) :
    c.get p = (some item,
      ⟨c.capacity, (c.items.eraseP (fun e => e.1 == p)) ++ [(p, item)]⟩) := by
  simp [ImageCache.get, h]

theorem get_keys_perm {V : Type} (c : ImageCache V) (p : String) :
    (((c.get p).2.items.map Prod.fst).Perm (c.items.map Prod.fst)) := by
  cases hl : c.items.lookup p with
  | none => rw [get_miss c p hl]
  | some item =>
      rw [get_hit c p item hl]
      obtain ⟨L1, L2, hdec, hkey, herase⟩ := lookup_eraseP_decomp c.items p item hl
      show (((c.items.eraseP (fun e => e.1 == p)) ++ [(p, item)]).map Prod.fst).Perm _
      rw [herase, hdec]
      simp only [List.map_append, List.map_cons, List.map_nil]
      rw [List.append_assoc]
      exact (List.perm_append_singleton p (L2.map Prod.fst)).append_left _

/-! ## Characterization of one preload-loop iteration -/

theorem preloadStep_out_of_range {V : Type} (st : ViewerState V) (off : Int)
    (h : ¬ neighborInRange st off) : preloadStep st off = st := by
  simp only [neighborInRange] at h
  simp only [preloadStep]
  rw [if_neg h]

theorem preloadStep_hit {V : Type} (st : ViewerState V) (off : Int) (item : CachedImage V)
    (hin : neighborInRange st off)
    (hhit : st.cache.items.lookup (neighborPath st off) = some item) :
    preloadStep st off =
      { st with cache := ⟨st.cache.capacity,
          (st.cache.items.eraseP (fun e => e.1 == neighborPath st off))
            ++ [(neighborPath st off, item)]⟩ } := by
  simp only [neighborInRange] at hin
  simp only [neighborPath] at hhit ⊢
  simp only [preloadStep]
  rw [if_pos hin, get_hit st.cache _ item hhit]

theorem preloadStep_miss_inflight {V : Type} (st : ViewerState V) (off : Int)
    (hin : neighborInRange st off)
    (hmiss : st.cache.items.lookup (neighborPath st off) = none)
    (hinf : neighborPath st off ∈ st.inflightLoads) :
    preloadStep st off = st := by
  simp only [neighborInRange] at hin
  simp only [neighborPath] at hmiss hinf
  simp only [preloadStep]
  rw [if_pos hin, get_miss st.cache _ hmiss]
  show (requestLoad _ "preload" st).2 = st
  simp only [requestLoad]
  rw [if_pos hinf]

theorem preloadStep_miss_request {V : Type} (st : ViewerState V) (off : Int)
    (hin : neighborInRange st off)
    (hmiss : st.cache.items.lookup (neighborPath st off) = none)
    (hninf : neighborPath st off ∉ st.inflightLoads) :
    preloadStep st off =
      { st with
        requestId := st.requestId + 1
        inflightLoads := neighborPath st off :: st.inflightLoads
        loaders := st.loaders ++ [(st.requestId + 1, neighborPath st off, "preload")] } := by
  simp only [neighborInRange] at hin
  simp only [neighborPath] at hmiss hninf ⊢
  simp only [preloadStep]
  rw [if_pos hin, get_miss st.cache _ hmiss]
  show (requestLoad _ "preload" st).2 = _
  simp only [requestLoad]
  rw [if_neg hninf]

theorem preloadStep_keys_perm {V : Type} (st : ViewerState V) (off : Int) :
    (((preloadStep st off).cache.items.map Prod.fst)).Perm
      (st.cache.items.map Prod.fst) := by
  by_cases hin : neighborInRange st off
  · cases hl : st.cache.items.lookup (neighborPath st off) with
    | none =>
        by_cases hinf : neighborPath st off ∈ st.inflightLoads
        · rw [preloadStep_miss_inflight st off hin hl hinf]
        · rw [preloadStep_miss_request st off hin hl hinf]
    | some item =>
        rw [preloadStep_hit st off item hin hl]
        have hperm := get_keys_perm st.cache (neighborPath st off)
        rw [get_hit st.cache _ item hl] at hperm
        exact hperm
  · rw [preloadStep_out_of_range st off hin]

theorem preloadStep_loaders_shape {V : Type} (st : ViewerState V) (off : Int) :
    ((preloadStep st off).loaders = st.loaders ∧
      (preloadStep st off).inflightLoads = st.inflightLoads) ∨
    (neighborInRange st off ∧
      st.cache.items.lookup (neighborPath st off) = none ∧
      neighborPath st off ∉ st.inflightLoads ∧
      (preloadStep st off).loaders
        = st.loaders ++ [(st.requestId + 1, neighborPath st off, "preload")] ∧
      (preloadStep st off).inflightLoads = neighborPath st off :: st.inflightLoads) := by
  by_cases hin : neighborInRange st off
  · cases hl : st.cache.items.lookup (neighborPath st off) with
    | none =>
        by_cases hinf : neighborPath st off ∈ st.inflightLoads
        · rw [preloadStep_miss_inflight st off hin hl hinf]
          exact Or.inl ⟨rfl, rfl⟩
        · rw [preloadStep_miss_request st off hin hl hinf]
          exact Or.inr ⟨hin, rfl, hinf, rfl, rfl⟩
    | some item =>
        rw [preloadStep_hit st off item hin hl]
        exact Or.inl ⟨rfl, rfl⟩
  · rw [preloadStep_out_of_range st off hin]
    exact Or.inl ⟨rfl, rfl⟩

/-! ## C10: preload membership test promotes cached neighbors -/

/-- C10: when a neighbor at offset `off` is in range and its path is already
in the cache, the preload loop body issues no request for it (loaders,
in-flight set and request counter are untouched) but, because the membership
test goes through `ImageCache.get`, the neighbor entry is moved to the
most-recently-used end of the cache, reordering the recency list while
preserving its keys; and `_preload_neighbors` on a non-empty list is exactly
these two loop iterations. -/
theorem C10_preload_get_promotes {V : Type} (st : ViewerState V) (off : Int)
    (item : CachedImage V) (hin : neighborInRange st off)
    (hhit : st.cache.items.lookup (neighborPath st off) = some item) :
    (preloadStep st off).loaders = st.loaders ∧
    (preloadStep st off).inflightLoads = st.inflightLoads ∧
    (preloadStep st off).requestId = st.requestId ∧
    (preloadStep st off).cache.items.getLast? = some (neighborPath st off, item) ∧
    ((preloadStep st off).cache.items.map Prod.fst).Perm (st.cache.items.map Prod.fst) ∧
    (st.imageFiles ≠ [] → preloadNeighbors st = preloadStep (preloadStep st (-1)) 1) := by
  refine ⟨?_, ?_, ?_, ?_, preloadStep_keys_perm st off, ?_⟩
  · rw [preloadStep_hit st off item hin hhit]
  · rw [preloadStep_hit st off item hin hhit]
  · rw [preloadStep_hit st off item hin hhit]
  · rw [preloadStep_hit st off item hin hhit]
    exact List.getLast?_concat _
  · intro hne
    simp only [preloadNeighbors]
    rw [if_neg hne]

theorem C10_witness :
    neighborInRange c10State (-1) ∧
    (preloadStep c10State (-1)).loaders = c10State.loaders ∧
    (preloadStep c10State (-1)).cache.items.getLast? = some ("/a", cimg 1) ∧
    (preloadStep c10State (-1)).cache.items ≠ c10State.cache.items := by
  have hin : neighborInRange c10State (-1) := by
    unfold neighborInRange
    decide
  have hhit : c10State.cache.items.lookup (neighborPath c10State (-1)) = some (cimg 1) := by
    unfold neighborPath
    decide
  have h := C10_preload_get_promotes c10State (-1) (cimg 1) hin hhit
  refine ⟨hin, h.1, ?_, by decide⟩
  have h4 := h.2.2.2.1
  have hp : neighborPath c10State (-1) = "/a" := by
    unfold neighborPath
    decide
  rw [hp] at h4
  exact h4

/-! ## C8: which neighbors the preload actually requests -/

theorem lookup_isSome_perm {α : Type} {l1 l2 : List (String × α)}
    (hperm : (l1.map Prod.fst).Perm (l2.map Prod.fst)) (p : String) :
    (l1.lookup p).isSome = (l2.lookup p).isSome := by
  by_cases h : p ∈ l2.map Prod.fst
  · rw [(lookup_isSome_iff l1 p).mpr (hperm.mem_iff.mpr h), (lookup_isSome_iff l2 p).mpr h]
  · have h1 : p ∉ l1.map Prod.fst := fun hx => h (hperm.mem_iff.mp hx)
    have e1 : (l1.lookup p).isSome = false := by
      cases hx : (l1.lookup p).isSome
      · rfl
      · exact absurd ((lookup_isSome_iff l1 p).mp hx) h1
    have e2 : (l2.lookup p).isSome = false := by
      cases hx : (l2.lookup p).isSome
      · rfl
      · exact absurd ((lookup_isSome_iff l2 p).mp hx) h
    rw [e1, e2]

theorem neighborPath_ne {V : Type} (st : ViewerState V) (hnd : st.imageFiles.Nodup)
    (hin1 : neighborInRange st (-1)) (hin2 : neighborInRange st 1) :
    neighborPath st (-1) ≠ neighborPath st 1 := by
  unfold neighborInRange at hin1 hin2
  unfold neighborPath
  obtain ⟨h1a, h1b⟩ := hin1
  obtain ⟨h2a, h2b⟩ := hin2
  have hm : (st.currentIndex + (-1)).toNat < st.imageFiles.length := by omega
  have hn : (st.currentIndex + 1).toNat < st.imageFiles.length := by omega
  have hmn : (st.currentIndex + (-1)).toNat ≠ (st.currentIndex + 1).toNat := by omega
  intro hx
  rw [List.getD_eq_getElem?_getD, List.getD_eq_getElem?_getD,
    List.getElem?_eq_getElem hm, List.getElem?_eq_getElem hn] at hx
  simp only [Option.getD_some] at hx
  exact hmn ((List.Nodup.getElem_inj_iff hnd).mp hx)

theorem preloadStep_requestId_le {V : Type} (st : ViewerState V) (off : Int) :
    st.requestId ≤ (preloadStep st off).requestId := by
  by_cases hin : neighborInRange st off
  · cases hl : st.cache.items.lookup (neighborPath st off) with
    | none =>
        by_cases hinf : neighborPath st off ∈ st.inflightLoads
        · rw [preloadStep_miss_inflight st off hin hl hinf]
        · rw [preloadStep_miss_request st off hin hl hinf]
          exact Nat.le_succ _
    | some item =>
        rw [preloadStep_hit st off item hin hl]
  · rw [preloadStep_out_of_range st off hin]

theorem C8_counterexample :
    ((c8State.currentIndex - 1) % (c8State.imageFiles.length : Int) = 2) ∧
    c8State.imageFiles.getD 2 "" = "/c" ∧
    c8State.cache.items.lookup "/c" = none ∧
    (preloadNeighbors c8State).loaders = [(1, "/b", "preload")] ∧
    (∀ l ∈ (preloadNeighbors c8State).loaders, l.2.1 ≠ "/c") := by
  decide

/-- C8 amended: after an index change the controller preloads only the
neighbors at the literal offsets -1 and +1 that fall inside `[0, len)` — no
wraparound — with role `"preload"`; a neighbor already present in the cache
gets no new request; and an in-range neighbor that is neither cached nor in
flight does get a fresh preload request.  No other path is requested. -/
theorem C8_amended_preload {V : Type} (st : ViewerState V)
    (hne : st.imageFiles ≠ []) (hnd : st.imageFiles.Nodup) :
    (∀ l ∈ (preloadNeighbors st).loaders, l ∈ st.loaders ∨
      (l.2.2 = "preload" ∧ ∃ off : Int, (off = -1 ∨ off = 1) ∧ neighborInRange st off ∧
        l.2.1 = neighborPath st off)) ∧
    (∀ off : Int, (off = -1 ∨ off = 1) → neighborInRange st off →
      (st.cache.items.lookup (neighborPath st off)).isSome = true →
      ∀ l ∈ (preloadNeighbors st).loaders, l.2.1 = neighborPath st off →
        l ∈ st.loaders) ∧
    (∀ off : Int, (off = -1 ∨ off = 1) → neighborInRange st off →
      st.cache.items.lookup (neighborPath st off) = none →
      neighborPath st off ∉ st.inflightLoads →
      ∃ req, st.requestId < req ∧
        (req, neighborPath st off, "preload") ∈ (preloadNeighbors st).loaders) := by
  have hfr := preloadStep_files_idx st (-1)
  have hpathcong : neighborPath (preloadStep st (-1)) 1 = neighborPath st 1 := by
    unfold neighborPath
    rw [hfr.1, hfr.2]
  have hincong : neighborInRange (preloadStep st (-1)) 1 ↔ neighborInRange st 1 := by
    unfold neighborInRange
    rw [hfr.1, hfr.2]
  have hP : preloadNeighbors st = preloadStep (preloadStep st (-1)) 1 := by
    simp only [preloadNeighbors]
    rw [if_neg hne]
  have hkeys := preloadStep_keys_perm st (-1)
  have hsome : ∀ p, ((preloadStep st (-1)).cache.items.lookup p).isSome
      = (st.cache.items.lookup p).isSome := fun p => lookup_isSome_perm hkeys p
  refine ⟨?_, ?_, ?_⟩
  · -- only literal neighbors, role preload
    rw [hP]
    intro l hl
    rcases preloadStep_loaders_shape (preloadStep st (-1)) 1 with ⟨hL2, hI2⟩ |
      ⟨hin2, hmiss2, hninf2, hL2, hI2⟩ <;>
      rcases preloadStep_loaders_shape st (-1) with ⟨hL1, hI1⟩ |
        ⟨hin1, hmiss1, hninf1, hL1, hI1⟩
    · rw [hL2, hL1] at hl
      exact Or.inl hl
    · rw [hL2, hL1] at hl
      rcases List.mem_append.mp hl with hl | hl
      · exact Or.inl hl
      · rw [List.mem_singleton.mp hl]
        exact Or.inr ⟨rfl, -1, Or.inl rfl, hin1, rfl⟩
    · rw [hL2, hL1] at hl
      rcases List.mem_append.mp hl with hl | hl
      · exact Or.inl hl
      · rw [List.mem_singleton.mp hl]
        exact Or.inr ⟨rfl, 1, Or.inr rfl, hincong.mp hin2, hpathcong⟩
    · rw [hL2, hL1] at hl
      rcases List.mem_append.mp hl with hl | hl
      · rcases List.mem_append.mp hl with hl | hl
        · exact Or.inl hl
        · rw [List.mem_singleton.mp hl]
          exact Or.inr ⟨rfl, -1, Or.inl rfl, hin1, rfl⟩
      · rw [List.mem_singleton.mp hl]
        exact Or.inr ⟨rfl, 1, Or.inr rfl, hincong.mp hin2, hpathcong⟩
  · -- a cached neighbor gets no new request
    rw [hP]
    intro off hoff hin hcached l hl hlpath
    rcases preloadStep_loaders_shape (preloadStep st (-1)) 1 with ⟨hL2, hI2⟩ |
      ⟨hin2, hmiss2, hninf2, hL2, hI2⟩ <;>
      rcases preloadStep_loaders_shape st (-1) with ⟨hL1, hI1⟩ |
        ⟨hin1, hmiss1, hninf1, hL1, hI1⟩
    · rw [hL2, hL1] at hl
      exact hl
    · rw [hL2, hL1] at hl
      rcases List.mem_append.mp hl with hl | hl
      · exact hl
      · exfalso
        rw [List.mem_singleton.mp hl] at hlpath
        rcases hoff with rfl | rfl
        · rw [← hlpath] at hcached
          rw [hmiss1] at hcached
          simp at hcached
        · exact neighborPath_ne st hnd hin1 hin hlpath
    · rw [hL2, hL1] at hl
      rcases List.mem_append.mp hl with hl | hl
      · exact hl
      · exfalso
        rw [List.mem_singleton.mp hl] at hlpath
        rw [hpathcong] at hlpath hmiss2
        have hstmiss : (st.cache.items.lookup (neighborPath st 1)).isSome = false := by
          rw [← hsome, hmiss2]
          rfl
        rcases hoff with rfl | rfl
        · exact neighborPath_ne st hnd hin (hincong.mp hin2) hlpath.symm
        · rw [← hlpath] at hcached
          rw [hcached] at hstmiss
          simp at hstmiss
    · rw [hL2, hL1] at hl
      rcases List.mem_append.mp hl with hl | hl
      · rcases List.mem_append.mp hl with hl | hl
        · exact hl
        · exfalso
          rw [List.mem_singleton.mp hl] at hlpath
          rcases hoff with rfl | rfl
          · rw [← hlpath] at hcached
            rw [hmiss1] at hcached
            simp at hcached
          · exact neighborPath_ne st hnd hin1 hin hlpath
      · exfalso
        rw [List.mem_singleton.mp hl] at hlpath
        rw [hpathcong] at hlpath hmiss2
        have hstmiss : (st.cache.items.lookup (neighborPath st 1)).isSome = false := by
          rw [← hsome, hmiss2]
          rfl
        rcases hoff with rfl | rfl
        · exact neighborPath_ne st hnd hin (hincong.mp hin2) hlpath.symm
        · rw [← hlpath] at hcached
          rw [hcached] at hstmiss
          simp at hstmiss
  · -- an absent, not-in-flight neighbor is requested with a fresh id
    rw [hP]
    intro off hoff hin hmiss hninf
    rcases hoff with rfl | rfl
    · have hs1 := preloadStep_miss_request st (-1) hin hmiss hninf
      have hx1 : (st.requestId + 1, neighborPath st (-1), "preload")
          ∈ (preloadStep st (-1)).loaders := by
        rw [hs1]
        exact List.mem_append.mpr (Or.inr (List.mem_singleton.mpr rfl))
      refine ⟨st.requestId + 1, Nat.lt_succ_self _, ?_⟩
      rcases preloadStep_loaders_shape (preloadStep st (-1)) 1 with ⟨hL2, hI2⟩ |
        ⟨hin2, hmiss2, hninf2, hL2, hI2⟩
      · rw [hL2]
        exact hx1
      · rw [hL2]
        exact List.mem_append.mpr (Or.inl hx1)
    · have hin2' : neighborInRange (preloadStep st (-1)) 1 := hincong.mpr hin
      have hmiss2' : (preloadStep st (-1)).cache.items.lookup
          (neighborPath (preloadStep st (-1)) 1) = none := by
        rw [hpathcong]
        rw [← Option.not_isSome_iff_eq_none]
        intro hx
        rw [hsome (neighborPath st 1), hmiss] at hx
        simp at hx
      have hninf2' : neighborPath (preloadStep st (-1)) 1
          ∉ (preloadStep st (-1)).inflightLoads := by
        rw [hpathcong]
        rcases preloadStep_loaders_shape st (-1) with ⟨hL1, hI1⟩ |
          ⟨hin1, hmiss1, hninf1, hL1, hI1⟩
        · rw [hI1]
          exact hninf
        · rw [hI1]
          intro hx
          rcases List.mem_cons.mp hx with hx | hx
          · exact neighborPath_ne st hnd hin1 hin hx.symm
          · exact hninf hx
      have hs2 := preloadStep_miss_request (preloadStep st (-1)) 1 hin2' hmiss2' hninf2'
      refine ⟨(preloadStep st (-1)).requestId + 1,
        Nat.lt_of_le_of_lt (preloadStep_requestId_le st (-1)) (Nat.lt_succ_self _), ?_⟩
      rw [hs2, ← hpathcong]
      exact List.mem_append.mpr (Or.inr (List.mem_singleton.mpr rfl))

theorem C8_witness :
    ∃ req, c8State.requestId < req ∧
      (req, "/b", "preload") ∈ (preloadNeighbors c8State).loaders := by
  have hin : neighborInRange c8State 1 := by
    unfold neighborInRange
    decide
  have hpath : neighborPath c8State 1 = "/b" := by
    unfold neighborPath
    decide
  have h := (C8_amended_preload c8State (by decide) (by decide)).2.2 1 (Or.inr rfl) hin
    (by rw [hpath]; decide) (by rw [hpath]; decide)
  rw [hpath] at h
  exact h

/-! ## C9: the directory scanner -/

theorem charsLe_trans : ∀ (as bs cs : List Char), charsLe as bs = true →
    charsLe bs cs = true → charsLe as cs = true := by
  intro as
  induction as with
  | nil =>
      intro bs cs h1 h2
      rfl
  | cons a as ih =>
      intro bs cs h1 h2
      cases bs with
      | nil => simp [charsLe] at h1
      | cons b bs' =>
          cases cs with
          | nil => simp [charsLe] at h2
          | cons c cs' =>
              simp only [charsLe] at h1 h2 ⊢
              by_cases hab : a.toNat = b.toNat
              · rw [if_pos hab] at h1
                by_cases hbc : b.toNat = c.toNat
                · rw [if_pos hbc] at h2
                  rw [if_pos (hab.trans hbc)]
                  exact ih bs' cs' h1 h2
                · rw [if_neg hbc] at h2
                  have hbclt : b.toNat < c.toNat := by simpa using h2
                  have hac : ¬ a.toNat = c.toNat := by omega
                  rw [if_neg hac]
                  simp only [decide_eq_true_eq]
                  omega
              · rw [if_neg hab] at h1
                have hablt : a.toNat < b.toNat := by simpa using h1
                by_cases hbc : b.toNat = c.toNat
                · have hac : ¬ a.toNat = c.toNat := by omega
                  rw [if_neg hac]
                  simp only [decide_eq_true_eq]
                  omega
                · rw [if_neg hbc] at h2
                  have hbclt : b.toNat < c.toNat := by simpa using h2
                  have hac : ¬ a.toNat = c.toNat := by omega
                  rw [if_neg hac]
                  simp only [decide_eq_true_eq]
                  omega

theorem charsLe_total : ∀ (as bs : List Char),
    charsLe as bs = true ∨ charsLe bs as = true := by
  intro as
  induction as with
  | nil =>
      intro bs
      exact Or.inl rfl
  | cons a as ih =>
      intro bs
      cases bs with
      | nil => exact Or.inr rfl
      | cons b bs' =>
          simp only [charsLe]
          by_cases hab : a.toNat = b.toNat
          · rw [if_pos hab, if_pos hab.symm]
            exact ih bs'
          · rw [if_neg hab, if_neg (fun h => hab h.symm)]
            simp only [decide_eq_true_eq]
            omega

theorem pathLe_trans (a b c : String) (h1 : pathLe a b = true) (h2 : pathLe b c = true) :
    pathLe a c = true :=
  charsLe_trans a.data b.data c.data h1 h2

theorem pathLe_total (a b : String) : pathLe a b = true ∨ pathLe b a = true :=
  charsLe_total a.data b.data

theorem mem_insertSorted (x : String) (l : List String) (a : String) :
    a ∈ insertSorted x l ↔ a = x ∨ a ∈ l := by
  induction l with
  | nil => simp [insertSorted]
  | cons y ys ih =>
      simp only [insertSorted]
      split
      · simp only [List.mem_cons]
      · simp only [List.mem_cons, ih]
        tauto

theorem insertSorted_pairwise (x : String) (l : List String)
    (h : List.Pairwise (fun a b => pathLe a b = true) l) :
    List.Pairwise (fun a b => pathLe a b = true) (insertSorted x l) := by
  induction l with
  | nil => simp [insertSorted]
  | cons y ys ih =>
      rw [List.pairwise_cons] at h
      obtain ⟨hy, hys⟩ := h
      simp only [insertSorted]
      split
      · rename_i hxy
        refine List.Pairwise.cons ?_ (List.Pairwise.cons hy hys)
        intro z hz
        rcases List.mem_cons.mp hz with rfl | hz
        · exact hxy
        · exact pathLe_trans x y z hxy (hy z hz)
      · rename_i hxy
        have hyx : pathLe y x = true := by
          rcases pathLe_total x y with h | h
          · exact absurd h hxy
          · exact h
        refine List.Pairwise.cons ?_ (ih hys)
        intro z hz
        rcases (mem_insertSorted x ys z).mp hz with rfl | hz
        · exact hyx
        · exact hy z hz

theorem insertSorted_perm (x : String) (l : List String) :
    (insertSorted x l).Perm (x :: l) := by
  induction l with
  | nil => exact List.Perm.refl _
  | cons y ys ih =>
      simp only [insertSorted]
      split
      · exact List.Perm.refl _
      · exact (ih.cons y).trans (List.Perm.swap x y ys)

theorem sortPaths_perm (l : List String) : (sortPaths l).Perm l := by
  induction l with
  | nil => exact List.Perm.refl _
  | cons a l ih =>
      show (insertSorted a (sortPaths l)).Perm (a :: l)
      exact (insertSorted_perm a (sortPaths l)).trans (ih.cons a)

theorem sortPaths_pairwise (l : List String) :
    List.Pairwise (fun a b => pathLe a b = true) (sortPaths l) := by
  induction l with
  | nil => exact List.Pairwise.nil
  | cons a l ih => exact insertSorted_pairwise a (sortPaths l) ih

/-- C9: the scanner reports an empty list and index 0 when the folder is
unreadable; otherwise it reports exactly the absolute paths of the direct
child files whose lower-cased extension is supported, sorted lexicographically
by code point, with the starting index the first position of the selected
path when it is present and 0 otherwise. -/
theorem C9_scanner_contract (entries : List DirEntry) (selected : Option String) :
    scanRun none selected = ([], 0) ∧
    List.Pairwise (fun a b => pathLe a b = true) (scanRun (some entries) selected).1 ∧
    (∀ p, p ∈ (scanRun (some entries) selected).1 ↔
      ∃ e ∈ entries, e.isFile = true ∧
        SUPPORTED_EXTENSIONS.contains (lowerStr (splitextExt e.name)) = true ∧
        e.absPath = p) ∧
    (∀ s, selected = some s → s ∈ (scanRun (some entries) selected).1 →
      (scanRun (some entries) selected).1[(scanRun (some entries) selected).2]? = some s ∧
      ∀ j, j < (scanRun (some entries) selected).2 →
        (scanRun (some entries) selected).1[j]? ≠ some s) ∧
    (∀ s, selected = some s → s ∉ (scanRun (some entries) selected).1 →
      (scanRun (some entries) selected).2 = 0) ∧
    (selected = none → (scanRun (some entries) selected).2 = 0) := by
  refine ⟨rfl, sortPaths_pairwise _, ?_, ?_, ?_, ?_⟩
  · intro p
    show p ∈ sortPaths _ ↔ _
    rw [(sortPaths_perm _).mem_iff]
    simp only [List.mem_map, List.mem_filter, entrySupported, Bool.and_eq_true]
    constructor
    · rintro ⟨e, ⟨he, hfile, hext⟩, habs⟩
      exact ⟨e, he, hfile, hext, habs⟩
    · rintro ⟨e, he, hfile, hext, habs⟩
      exact ⟨e, ⟨he, hfile, hext⟩, habs⟩
  · intro s hsel hs
    subst hsel
    simp only [scanRun] at hs ⊢
    rw [if_pos hs]
    have hlt : (sortPaths ((entries.filter entrySupported).map (fun e => e.absPath))).indexOf s
        < (sortPaths ((entries.filter entrySupported).map (fun e => e.absPath))).length :=
      List.indexOf_lt_length.mpr hs
    refine ⟨?_, ?_⟩
    · rw [List.getElem?_eq_getElem hlt, List.getElem_indexOf hlt]
    · intro j hj hsome
      have hjlt : j < (sortPaths ((entries.filter entrySupported).map
          (fun e => e.absPath))).length := Nat.lt_trans hj hlt
      rw [List.getElem?_eq_getElem hjlt] at hsome
      have hfalse := List.not_of_lt_findIdx hj
      rw [Option.some.inj hsome] at hfalse
      simp at hfalse
  · intro s hsel hs
    subst hsel
    simp only [scanRun] at hs ⊢
    rw [if_neg hs]
  · intro hsel
    subst hsel
    rfl

theorem C9_witness :
    scanRun none (some "/x") = ([], 0) ∧
    (scanRun (some [⟨"b.PNG", "/d/b.PNG", true⟩, ⟨"a.jpg", "/d/a.jpg", true⟩,
        ⟨"sub", "/d/sub", false⟩, ⟨"x.txt", "/d/x.txt", true⟩])
      (some "/d/b.PNG")).1 = ["/d/a.jpg", "/d/b.PNG"] ∧
    (scanRun (some [⟨"b.PNG", "/d/b.PNG", true⟩, ⟨"a.jpg", "/d/a.jpg", true⟩,
        ⟨"sub", "/d/sub", false⟩, ⟨"x.txt", "/d/x.txt", true⟩])
      (some "/d/b.PNG")).1[(scanRun (some [⟨"b.PNG", "/d/b.PNG", true⟩,
        ⟨"a.jpg", "/d/a.jpg", true⟩, ⟨"sub", "/d/sub", false⟩,
        ⟨"x.txt", "/d/x.txt", true⟩]) (some "/d/b.PNG")).2]? = some "/d/b.PNG" := by
  refine ⟨(C9_scanner_contract [] (some "/x")).1, by decide, ?_⟩
  exact ((C9_scanner_contract [⟨"b.PNG", "/d/b.PNG", true⟩, ⟨"a.jpg", "/d/a.jpg", true⟩,
      ⟨"sub", "/d/sub", false⟩, ⟨"x.txt", "/d/x.txt", true⟩]
    (some "/d/b.PNG")).2.2.2.1 "/d/b.PNG" rfl (by decide)).1

/-! ## C1: the LRU cache invariant -/

theorem evictOld_length_le {α : Type} (cap : Nat) (l : List α) :
    (evictOld cap l).length ≤ cap := by
  induction l with
  | nil => simp [evictOld]
  | cons x xs ih =>
      simp only [evictOld]
      split
      · exact ih
      · rename_i hx
        simp only [List.length_cons]
        omega

theorem evictOld_sublist {α : Type} (cap : Nat) (l : List α) :
    (evictOld cap l).Sublist l := by
  induction l with
  | nil => exact List.Sublist.refl _
  | cons x xs ih =>
      simp only [evictOld]
      split
      · exact ih.trans (List.sublist_cons_self x xs)
      · exact List.Sublist.refl _

theorem evictOld_eq_drop {α : Type} (cap : Nat) (l : List α) :
    evictOld cap l = l.drop (l.length - cap) := by
  induction l with
  | nil => simp [evictOld]
  | cons x xs ih =>
      simp only [evictOld, List.length_cons]
      split
      · rename_i hx
        have harith : xs.length + 1 - cap = (xs.length - cap) + 1 := by omega
        rw [harith, ih]
        rfl
      · rename_i hx
        have harith : xs.length + 1 - cap = 0 := by omega
        rw [harith]
        rfl

theorem map_evictOld {α β : Type} (f : α → β) (cap : Nat) (l : List α) :
    (evictOld cap l).map f = evictOld cap (l.map f) := by
  induction l with
  | nil => rfl
  | cons x xs ih =>
      simp only [evictOld, List.map_cons, List.length_map]
      split
      · exact ih
      · rfl

theorem map_fst_eraseP_key {α : Type} (l : List (String × α)) (p : String) :
    ((l.eraseP (fun e => e.1 == p)).map Prod.fst)
      = (l.map Prod.fst).eraseP (fun k => k == p) := by
  induction l with
  | nil => rfl
  | cons a rest ih =>
      simp only [List.eraseP_cons, List.map_cons]
      cases hx : (a.1 == p)
      · simp only [cond_false, List.map_cons, ih]
      · simp only [cond_true]

theorem lookup_isSome_congr {α β : Type} (l1 : List (String × α)) (l2 : List (String × β))
    (h : l1.map Prod.fst = l2.map Prod.fst) (p : String) :
    (l1.lookup p).isSome = (l2.lookup p).isSome := by
  by_cases hm : p ∈ l2.map Prod.fst
  · rw [(lookup_isSome_iff l1 p).mpr (by rw [h]; exact hm), (lookup_isSome_iff l2 p).mpr hm]
  · have h1 : p ∉ l1.map Prod.fst := by rw [h]; exact hm
    have e1 : (l1.lookup p).isSome = false := by
      cases hx : (l1.lookup p).isSome
      · rfl
      · exact absurd ((lookup_isSome_iff l1 p).mp hx) h1
    have e2 : (l2.lookup p).isSome = false := by
      cases hx : (l2.lookup p).isSome
      · rfl
      · exact absurd ((lookup_isSome_iff l2 p).mp hx) hm
    rw [e1, e2]

theorem applyOp_capacity {V : Type} (c : ImageCache V) (op : CacheOp V) :
    (c.applyOp op).capacity = c.capacity := by
  cases op with
  | get p =>
      show (c.get p).2.capacity = c.capacity
      cases hl : c.items.lookup p with
      | none => rw [get_miss c p hl]
      | some item => rw [get_hit c p item hl]
  | put p item => rfl

theorem applyOp_keys {V : Type} (c : ImageCache V) (s : List (String × Nat)) (t : Nat)
    (op : CacheOp V) (h : c.items.map Prod.fst = s.map Prod.fst) :
    (c.applyOp op).items.map Prod.fst
      = (touchStep c.capacity t s op).map Prod.fst := by
  cases op with
  | get p =>
      show (c.get p).2.items.map Prod.fst = _
      have hsome := lookup_isSome_congr c.items s h p
      simp only [touchStep]
      cases hl : c.items.lookup p with
      | none =>
          rw [get_miss c p hl]
          rw [hl] at hsome
          rw [if_neg (by rw [← hsome]; simp)]
          exact h
      | some item =>
          rw [get_hit c p item hl]
          rw [hl] at hsome
          have ht : (s.lookup p).isSome = true := by
            rw [← hsome]
            rfl
          rw [if_pos ht]
          show ((c.items.eraseP _) ++ [(p, item)]).map Prod.fst = _
          simp only [List.map_append, List.map_cons, List.map_nil]
          rw [map_fst_eraseP_key, map_fst_eraseP_key, h]
  | put p item =>
      show (c.put p item).items.map Prod.fst = _
      simp only [ImageCache.put, touchStep]
      rw [map_evictOld, map_evictOld]
      congr 1
      simp only [List.map_append, List.map_cons, List.map_nil]
      rw [map_fst_eraseP_key, map_fst_eraseP_key, h]

theorem timesOk_sublist {t : Nat} {s1 s2 : List (String × Nat)}
    (hsub : s1.Sublist s2) (h : TimesOk t s2) : TimesOk t s1 :=
  ⟨List.Pairwise.sublist hsub h.1, fun e he => h.2 e (List.Sublist.mem he hsub)⟩

theorem timesOk_mono {t t2 : Nat} {s : List (String × Nat)}
    (hle : t ≤ t2) (h : TimesOk t s) : TimesOk t2 s :=
  ⟨h.1, fun e he => Nat.lt_of_lt_of_le (h.2 e he) hle⟩

theorem timesOk_append (t : Nat) (s : List (String × Nat)) (p : String)
    (h : TimesOk t s) : TimesOk (t + 1) ((s.eraseP (fun e => e.1 == p)) ++ [(p, t)]) := by
  obtain ⟨hpw, hbound⟩ := h
  constructor
  · rw [List.pairwise_append]
    refine ⟨List.Pairwise.sublist (List.eraseP_sublist s) hpw,
      List.pairwise_singleton _ _, ?_⟩
    intro a ha b hb
    rw [List.mem_singleton.mp hb]
    exact hbound a (List.Sublist.mem ha (List.eraseP_sublist s))
  · intro e he
    rcases List.mem_append.mp he with he | he
    · exact Nat.lt_succ_of_lt (hbound e (List.Sublist.mem he (List.eraseP_sublist s)))
    · rw [List.mem_singleton.mp he]
      exact Nat.lt_succ_self t

theorem touchStep_timesOk {V : Type} (cap t : Nat) (s : List (String × Nat)) (op : CacheOp V)
    (h : TimesOk t s) : TimesOk (t + 1) (touchStep cap t s op) := by
  cases op with
  | get p =>
      simp only [touchStep]
      split
      · exact timesOk_append t s p h
      · exact timesOk_mono (Nat.le_succ t) h
  | put p item =>
      simp only [touchStep]
      exact timesOk_sublist (evictOld_sublist cap _) (timesOk_append t s p h)

theorem touchStep_length {V : Type} (cap t : Nat) (s : List (String × Nat)) (op : CacheOp V)
    (h : s.length ≤ cap) : (touchStep cap t s op).length ≤ cap := by
  cases op with
  | get p =>
      simp only [touchStep]
      split
      · rename_i hsome
        have hmem : p ∈ s.map Prod.fst := (lookup_isSome_iff s p).mp hsome
        obtain ⟨e, he, hep⟩ := List.mem_map.mp hmem
        have herase : (s.eraseP (fun e => e.1 == p)).length = s.length - 1 :=
          List.length_eraseP_of_mem he (by simp [hep])
        have hpos : 1 ≤ s.length := by
          cases s with
          | nil => simp at he
          | cons a l => simp
        simp only [List.length_append, List.length_cons, List.length_nil, herase]
        omega
      · exact h
  | put p item => exact evictOld_length_le cap _

theorem touchRun_append {V : Type} (cap t : Nat) (s : List (String × Nat))
    (l1 l2 : List (CacheOp V)) :
    touchRun cap t s (l1 ++ l2)
      = touchRun cap (t + l1.length) (touchRun cap t s l1) l2 := by
  induction l1 generalizing t s with
  | nil => simp [touchRun]
  | cons op l1 ih =>
      show touchRun cap (t + 1) (touchStep cap t s op) (l1 ++ l2) = _
      rw [ih]
      have harith : t + 1 + l1.length = t + (l1.length + 1) := by omega
      rw [harith]
      rfl

theorem touchState_succ {V : Type} (cap : Nat) (ops : List (CacheOp V)) (k : Nat)
    (op : CacheOp V) (hop : ops[k]? = some op) :
    touchState cap ops (k + 1)
      = touchStep (max 1 cap) k (touchState cap ops k) op := by
  have hk : k < ops.length := (List.getElem?_eq_some_iff.mp hop).1
  have htake : ops.take (k + 1) = ops.take k ++ [op] := by
    rw [List.take_succ, hop]
    rfl
  unfold touchState
  rw [htake, touchRun_append]
  have hlen : (ops.take k).length = k := by
    rw [List.length_take]
    omega
  rw [hlen]
  simp [touchRun]

theorem realCache_succ (V : Type) (cap : Nat) (ops : List (CacheOp V)) (k : Nat)
    (op : CacheOp V) (hop : ops[k]? = some op) :
    realCache V cap ops (k + 1) = (realCache V cap ops k).applyOp op := by
  have htake : ops.take (k + 1) = ops.take k ++ [op] := by
    rw [List.take_succ, hop]
    rfl
  unfold realCache
  rw [htake]
  show ((ops.take k) ++ [op]).foldl ImageCache.applyOp _ = _
  rw [List.foldl_append]
  rfl

theorem touch_invariant (V : Type) (cap : Nat) (ops : List (CacheOp V)) (k : Nat) :
    (realCache V cap ops k).items.map Prod.fst = (touchState cap ops k).map Prod.fst ∧
    (realCache V cap ops k).capacity = max 1 cap ∧
    TimesOk (ops.take k).length (touchState cap ops k) ∧
    (touchState cap ops k).length ≤ max 1 cap := by
  induction k with
  | zero =>
      refine ⟨rfl, rfl, ⟨List.Pairwise.nil, ?_⟩, ?_⟩
      · intro e he
        simp [touchState, touchRun] at he
      · show (List.length []) ≤ max 1 cap
        simp
  | succ k ih =>
      obtain ⟨ihkeys, ihcap, ihtimes, ihlen⟩ := ih
      by_cases hk : k < ops.length
      · have hop : ops[k]? = some ops[k] := List.getElem?_eq_getElem hk
        have hreal := realCache_succ V cap ops k _ hop
        have htouch := touchState_succ cap ops k _ hop
        have htlen : (ops.take k).length = k := by
          rw [List.length_take]
          omega
        have htlen2 : (ops.take (k + 1)).length = k + 1 := by
          rw [List.length_take]
          omega
        rw [htlen] at ihtimes
        refine ⟨?_, ?_, ?_, ?_⟩
        · rw [hreal, htouch]
          have happ := applyOp_keys (realCache V cap ops k) (touchState cap ops k) k
            ops[k] ihkeys
          rw [ihcap] at happ
          exact happ
        · rw [hreal, applyOp_capacity, ihcap]
        · rw [htouch, htlen2]
          exact touchStep_timesOk (max 1 cap) k _ _ ihtimes
        · rw [htouch]
          exact touchStep_length (max 1 cap) k _ _ ihlen
      · have htake : ops.take (k + 1) = ops.take k := by
          rw [List.take_of_length_le (by omega), List.take_of_length_le (by omega)]
        have h1 : realCache V cap ops (k + 1) = realCache V cap ops k := by
          unfold realCache
          rw [htake]
        have h2 : touchState cap ops (k + 1) = touchState cap ops k := by
          unfold touchState
          rw [htake]
        rw [h1, h2, htake]
        exact ⟨ihkeys, ihcap, ihtimes, ihlen⟩

/-- C1: running any finite sequence of put/get operations from a fresh
`ImageCache(capacity=cap)`, the ghost-timestamped dictionary mirrors the real
cache key for key; after every prefix the cache holds at most
`max 1 cap` entries; a `get` on a present key moves that entry to the
most-recently-used end, carrying the newest touch index; and whenever a `put`
evicts, each evicted entry has a touch index no larger than that of every
member present at eviction time — the least-recently-touched entry goes — and
is indeed gone afterwards. -/
theorem C1_lru_cache (V : Type) (cap : Nat) (ops : List (CacheOp V)) :
    (∀ k, (realCache V cap ops k).items.map Prod.fst
        = (touchState cap ops k).map Prod.fst) ∧
    (∀ k, (realCache V cap ops k).items.length ≤ max 1 cap) ∧
    (∀ k p, ops[k]? = some (CacheOp.get p) →
      p ∈ (touchState cap ops k).map Prod.fst →
      (touchState cap ops (k + 1)).getLast? = some (p, k) ∧
      ((realCache V cap ops (k + 1)).items.map Prod.fst).getLast? = some p ∧
      ∀ e ∈ touchState cap ops (k + 1), e.2 ≤ k) ∧
    (∀ k p item, ops[k]? = some (CacheOp.put p item) →
      (touchEvicted cap ops k p).length ≤ 1 ∧
      ∀ e ∈ touchEvicted cap ops k p,
        (∀ e2 ∈ touchInserted cap ops k p, e.2 ≤ e2.2) ∧
        e ∉ touchState cap ops (k + 1)) := by
  refine ⟨?_, ?_, ?_, ?_⟩
  · intro k
    exact (touch_invariant V cap ops k).1
  · intro k
    have h1 := (touch_invariant V cap ops k).1
    have h2 := (touch_invariant V cap ops k).2.2.2
    have h3 := congrArg List.length h1
    rw [List.length_map, List.length_map] at h3
    omega
  · intro k p hop hmem
    have hsucc := touchState_succ cap ops k _ hop
    have hk : k < ops.length := (List.getElem?_eq_some_iff.mp hop).1
    have htlen : (ops.take k).length = k := by
      rw [List.length_take]
      omega
    obtain ⟨hkeys, hcap, htimes, hlen⟩ := touch_invariant V cap ops k
    rw [htlen] at htimes
    have hTsome : ((touchState cap ops k).lookup p).isSome = true :=
      (lookup_isSome_iff _ p).mpr hmem
    have hstep : touchState cap ops (k + 1)
        = (touchState cap ops k).eraseP (fun e => e.1 == p) ++ [(p, k)] := by
      rw [hsucc]
      simp only [touchStep]
      rw [if_pos hTsome]
    refine ⟨?_, ?_, ?_⟩
    · rw [hstep]
      exact List.getLast?_concat _
    · have hkeys1 := (touch_invariant V cap ops (k + 1)).1
      rw [hkeys1, hstep, List.map_append]
      exact List.getLast?_concat _
    · intro e he
      rw [hstep] at he
      rcases List.mem_append.mp he with he | he
      · exact Nat.le_of_lt (htimes.2 e (List.Sublist.mem he (List.eraseP_sublist _)))
      · rw [List.mem_singleton.mp he]
  · intro k p item hop
    have hsucc := touchState_succ cap ops k _ hop
    have hk : k < ops.length := (List.getElem?_eq_some_iff.mp hop).1
    have htlen : (ops.take k).length = k := by
      rw [List.length_take]
      omega
    obtain ⟨hkeys, hcap, htimes, hlen⟩ := touch_invariant V cap ops k
    rw [htlen] at htimes
    have hstep : touchState cap ops (k + 1)
        = evictOld (max 1 cap) (touchInserted cap ops k p) := by
      rw [hsucc]
      simp only [touchStep]
      rfl
    have hIts : TimesOk (k + 1) (touchInserted cap ops k p) := by
      unfold touchInserted
      exact timesOk_append k _ p htimes
    have hIlen : (touchInserted cap ops k p).length ≤ max 1 cap + 1 := by
      unfold touchInserted
      have h1 : ((touchState cap ops k).eraseP (fun e => e.1 == p)).length
          ≤ (touchState cap ops k).length := List.length_eraseP_le _
      simp only [List.length_append, List.length_cons, List.length_nil]
      omega
    have hEdef : touchEvicted cap ops k p = (touchInserted cap ops k p).take
        ((touchInserted cap ops k p).length - max 1 cap) := rfl
    have hElen : (touchEvicted cap ops k p).length ≤ 1 := by
      rw [hEdef, List.length_take]
      omega
    have hdropstate : touchState cap ops (k + 1) = (touchInserted cap ops k p).drop
        ((touchInserted cap ops k p).length - max 1 cap) := by
      rw [hstep, evictOld_eq_drop]
    have hsplitI : touchEvicted cap ops k p ++ touchState cap ops (k + 1)
        = touchInserted cap ops k p := by
      rw [hEdef, hdropstate]
      exact List.take_append_drop _ _
    have hpairsI : List.Pairwise (fun a b => a.2 < b.2)
        (touchEvicted cap ops k p ++ touchState cap ops (k + 1)) := by
      rw [hsplitI]
      exact hIts.1
    rw [List.pairwise_append] at hpairsI
    obtain ⟨hp1, hp2, hcross⟩ := hpairsI
    refine ⟨hElen, ?_⟩
    intro e he
    constructor
    · intro e2 he2
      rw [← hsplitI] at he2
      rcases List.mem_append.mp he2 with he2 | he2
      · have heq : e = e2 := by
          cases hq : touchEvicted cap ops k p with
          | nil =>
              rw [hq] at he
              simp at he
          | cons a tl =>
              rw [hq] at he he2 hElen
              cases tl with
              | nil => rw [List.mem_singleton.mp he, List.mem_singleton.mp he2]
              | cons b tb => simp at hElen
        rw [heq]
      · exact Nat.le_of_lt (hcross e he e2 he2)
    · intro hmem2
      exact absurd (hcross e he e hmem2) (lt_irrefl _)

theorem C1_witness :
    (realCache Nat 1 c1Ops 3).items.length ≤ max 1 1 ∧
    (touchState 1 c1Ops 3).getLast? = some ("b", 2) ∧
    (touchEvicted 1 c1Ops 1 "b").length ≤ 1 ∧
    touchEvicted 1 c1Ops 1 "b" = [("a", 0)] ∧
    ("a", 0) ∉ touchState 1 c1Ops 2 := by
  have h := C1_lru_cache Nat 1 c1Ops
  refine ⟨h.2.1 3, ?_, (h.2.2.2 1 "b" (cimg 1) (by decide)).1, by decide, ?_⟩
  · exact (h.2.2.1 2 "b" (by decide) (by decide)).1
  · exact ((h.2.2.2 1 "b" (cimg 1) (by decide)).2 ("a", 0) (by decide)).2
